import Mathlib

/-!
Verification of the merge-and-decide pipeline in `src/get_SNP_list.py`.

The embedding below follows the source file function by function:

* `__merge_snps` (lines 47-76): chained pandas full outer joins on the
  identity key `['SNP', 'REF(0)', 'ALT(1)', 'Genotyped']`.  For the claims
  about row counts and duplicate identities only the multiset of identity
  keys of each table matters, so a cohort table is embedded as its list of
  identity keys and the join is embedded through pandas' multiplicity
  semantics (matching rows are paired exhaustively, unmatched rows of either
  side are kept once).

* `__calculate_weighted_r2_maf_altFrq` (lines 86-136): the per-column
  arithmetic of lines 116-128.  A pandas float cell is embedded as
  `Option ℚ` with `none` playing the role of NaN (absent): `NaN * n = NaN`,
  `DataFrame.sum(axis=1)` skips NaN and sums an all-NaN row to 0, and
  `0 / 0 = NaN`.  Machine floats are idealised as rationals; the claims are
  about the algebraic shape of the computation, not rounding.

* `__process_output` (lines 160-247): the keep/exclude masks of lines
  183-196 (missing = 0) and lines 233-241 (missing > 0), and the
  forward-fill index-sum column of line 171.  Pandas comparisons with NaN
  (`NaN >= t`, `NaN < t`) are `False`.  Line 172 assigns the sorted frame to
  the attribute `df_merged.sort_values` and discards it, so the emitted row
  order is the merge order; the emission embedding reflects that.
-/

namespace IMMerge

/-- Identity of a variant: the four columns `SNP`, `REF(0)`, `ALT(1)`,
`Genotyped` that `__merge_snps` joins on
(`on=['SNP', 'REF(0)', 'ALT(1)', 'Genotyped']`, lines 62 and 73). -/
structure IdentityKey where
  snp : String
  ref : String
  alt : String
  genotyped : String
  deriving DecidableEq

/-- Number of rows of a cohort table (embedded as its list of identity keys)
that carry the key `k`; pandas join semantics pair rows through these
multiplicities. -/
def keyCount (k : IdentityKey) : List IdentityKey → ℕ
  | [] => 0
  | x :: xs => (if x = k then 1 else 0) + keyCount k xs

/-- Left block of a pandas full outer join on the identity key: each left row
is repeated once per matching right row (cross product of matches) and kept
once when it has no match. -/
def mergeLeft (b : List IdentityKey) : List IdentityKey → List IdentityKey
  | [] => []
  | x :: xs =>
      (if keyCount x b = 0 then [x] else List.replicate (keyCount x b) x) ++ mergeLeft b xs

/-- pandas `DataFrame.merge(how='outer', on=identity)` at the identity-key
level: the left rows paired with their right matches, followed by the right
rows that have no left match. -/
def outerMerge (a b : List IdentityKey) : List IdentityKey :=
  mergeLeft b a ++ b.filter (fun k => decide (keyCount k a = 0))

/-- `__merge_snps` (lines 47-76): the running result starts as the outer
merge of tables 1 and 2 and each further table is outer-merged into it.
With fewer than two tables no merged table is produced: for a single table
the first loop iteration evaluates `lst_info_df[i+1]` with `i = 0`, which
raises `IndexError`; for an empty list the loop never runs and the
placeholder string `df_merged = ''` is returned, which no downstream step
can use.  Both cases are embedded as `none`. -/
def mergeSnps : List (List IdentityKey) → Option (List IdentityKey)
  | [] => none
  | [_] => none
  | t1 :: t2 :: rest => some (rest.foldl outerMerge (outerMerge t1 t2))

/-- Union of the identity-key sets of a list of cohort tables. -/
def unionKeys (ts : List (List IdentityKey)) : Finset IdentityKey :=
  ts.foldr (fun t s => t.toFinset ∪ s) ∅

/-! ### Weighted statistics (`__calculate_weighted_r2_maf_altFrq`) -/

/-- pandas `DataFrame.sum(axis=1)` with the default `skipna=True`: missing
entries contribute nothing and an all-missing row sums to 0. -/
def sumSkip (l : List (Option ℚ)) : ℚ := (l.filterMap id).sum

/-- Lines 116-118, `df[col] * lst_number_of_individuals[i]`: a missing value
multiplied by the sample count stays missing. -/
def colAdj (x : Option ℚ) (n : ℕ) : Option ℚ := x.map (fun v => v * (n : ℚ))

/-- Line 120, `lst_number_of_individuals[i] * df[col_r2] / df[col_r2]`: a
missing r2 stays missing, an r2 of 0 produces `0 / 0`, which is NaN
(missing), and any other r2 yields `n * v / v`. -/
def weightAdj (n : ℚ) (x : Option ℚ) : Option ℚ :=
  x.bind (fun v => if v = 0 then none else some (n * v / v))

/-- Numerator of line 128: the NaN-skipping row sum of the `Rsq_groupX_adj`
columns. -/
def r2Num (r2s : List (Option ℚ)) (ns : List ℕ) : ℚ :=
  sumSkip (List.zipWith colAdj r2s ns)

/-- Denominator of line 128: the NaN-skipping row sum of the
`Rsq_groupX_weight_adj` columns built by line 120. -/
def r2WeightDen (r2s : List (Option ℚ)) (ns : List ℕ) : ℚ :=
  sumSkip (List.zipWith (fun (x : Option ℚ) (n : ℕ) => weightAdj (n : ℚ) x) r2s ns)

/-- Line 128, `Rsq_combined`.  When the denominator is 0 the numerator is 0
as well (`r2Num_eq_zero_of_den_zero` below), so the float division is
`0 / 0 = NaN`, embedded as `none`. -/
def Rsq_combined (r2s : List (Option ℚ)) (ns : List ℕ) : Option ℚ :=
  if r2WeightDen r2s ns = 0 then none else some (r2Num r2s ns / r2WeightDen r2s ns)

/-- Line 127, `MAF_combined`: NaN-skipping sum of `MAF_groupX_adj` divided by
the unconditional total `sum(lst_number_of_individuals)`.  A zero total
forces a numerator of 0 (every present entry is multiplied by a zero count),
so the division is again `0 / 0 = NaN`. -/
def MAF_combined (mafs : List (Option ℚ)) (ns : List ℕ) : Option ℚ :=
  if ((ns.sum : ℕ) : ℚ) = 0 then none
  else some (sumSkip (List.zipWith colAdj mafs ns) / ((ns.sum : ℕ) : ℚ))

/-- Line 126, `ALT_Frq_combined`: the same computation as `MAF_combined`
applied to the `ALT_Frq_groupX` columns. -/
def ALT_Frq_combined (frqs : List (Option ℚ)) (ns : List ℕ) : Option ℚ :=
  if ((ns.sum : ℕ) : ℚ) = 0 then none
  else some (sumSkip (List.zipWith colAdj frqs ns) / ((ns.sum : ℕ) : ℚ))

/-! ### Keep/exclude masks (`__process_output`) -/

/-- pandas `df[col] >= thr` on one cell: `False` when the cell is NaN. -/
def geNaN (x : Option ℚ) (t : ℚ) : Bool :=
  match x with
  | some v => decide (t ≤ v)
  | none => false

/-- pandas `df[col] < thr` on one cell: `False` when the cell is NaN. -/
def ltNaN (x : Option ℚ) (t : ℚ) : Bool :=
  match x with
  | some v => decide (v < t)
  | none => false

/-- Lines 187, 190, 195 (`missing == 0`): the keep mask conjoins, over the
cohorts, `df[col_r2].notna()` and, when `--r2_threshold != 0`,
`df[col_r2] >= threshold`. -/
def mask_to_keep (thr : ℚ) (r2s : List (Option ℚ)) : Bool :=
  r2s.all (fun x => x.isSome && (decide (thr = 0) || geNaN x thr))

/-- Lines 188, 191, 196 (`missing == 0`): the exclude mask disjoins, over the
cohorts, `df[col_r2].isna()` and, when `--r2_threshold != 0`,
`df[col_r2] < threshold`. -/
def mask_to_exclude (thr : ℚ) (r2s : List (Option ℚ)) : Bool :=
  r2s.any (fun x => !x.isSome || (!decide (thr = 0) && ltNaN x thr))

/-- Number of cohorts in which the variant's r2 is non-missing: the per-row
non-NA count that `dropna(thresh=...)` (line 235) tests. -/
def countPresent (r2s : List (Option ℚ)) : ℕ := r2s.countP (fun x => x.isSome)

/-- One row of the merged table: its identity key and, for each of the N
cohorts in order, the `index_groupX`, `Rsq_groupX`, `MAF_groupX` and
`ALT_Frq_groupX` cells (`none` = NaN = cohort did not observe the variant). -/
structure MergedRow where
  key : IdentityKey
  idxs : List (Option ℚ)
  r2s : List (Option ℚ)
  mafs : List (Option ℚ)
  frqs : List (Option ℚ)

/-- Row-level keep decision of `__process_output`: the `missing == 0` branch
uses the mask of lines 183-196; the `missing > 0` branch keeps the rows that
`dropna(thresh=len(input) - missing)` retains (lines 235-236), i.e. those
with at least `N - missing` non-NA r2 cells (an integer comparison, so an
allowance larger than N keeps everything). -/
def keepRow (N missing : ℕ) (thr : ℚ) (r : MergedRow) : Bool :=
  if missing = 0 then mask_to_keep thr r.r2s
  else decide ((N : ℤ) - (missing : ℤ) ≤ (countPresent r.r2s : ℤ))

/-- Row-level exclude decision of `__process_output`: the `missing == 0`
branch uses the mask of lines 188-196; the `missing > 0` branch is
`df_merged.drop(index=inx_to_keep)` (line 239), the literal complement of
the kept rows. -/
def exclRow (N missing : ℕ) (thr : ℚ) (r : MergedRow) : Bool :=
  if missing = 0 then mask_to_exclude thr r.r2s
  else !(keepRow N missing thr r)

/-- The kept and excluded row lists emitted by `__process_output` (lines
224-243).  Both selections preserve the order of `df_merged`: the sort of
line 172 is assigned to the attribute `df_merged.sort_values` instead of
being applied, so no reordering ever happens. -/
def process_output (N missing : ℕ) (thr : ℚ) (rows : List MergedRow) :
    List MergedRow × List MergedRow :=
  (rows.filter (keepRow N missing thr), rows.filter (exclRow N missing thr))

/-! ### Forward-filled index sums (line 171) -/

/-- One row of `fillna(method='ffill')` over the index columns: a present
cell keeps its value, a missing cell takes the carried value of its column
(still missing if no earlier row had a value). -/
def ffillRow (carry row : List (Option ℚ)) : List (Option ℚ) :=
  List.zipWith (fun c x => match x with | some v => some v | none => c) carry row

/-- The `sum_index_NA_ffilled` column of line 171: forward-fill the index
columns down the table, then take the NaN-skipping row sum. -/
def sumIndexKeys (carry : List (Option ℚ)) : List (List (Option ℚ)) → List ℚ
  | [] => []
  | r :: rs => sumSkip (ffillRow carry r) :: sumIndexKeys (ffillRow carry r) rs

/-- The sort-key column of line 171 for a merged table over `N` cohorts. -/
def sortKeys (N : ℕ) (rows : List MergedRow) : List ℚ :=
  sumIndexKeys (List.replicate N none) (rows.map (fun r => r.idxs))

/-- The `sum_index_NA_ffilled` values of the kept rows, in the order the kept
rows are written to `variants_kept_*.txt` (line 228 and, for `missing > 0`,
line 238): the merge order filtered by the keep decision, since line 172
never applies its sort. -/
def keptKeys (N missing : ℕ) (thr : ℚ) (rows : List MergedRow) : List ℚ :=
  ((rows.zip (sortKeys N rows)).filter (fun p => keepRow N missing thr p.1)).map
    (fun p => p.2)

/-! ### Definitions taken from the spec's words (for refinement claims) -/

/-- Reading of the spec's weighted numerator (section 4.3): absent values
contribute 0 to `Σ value_i * n_i`. -/
def specWeightedSum (vals : List (Option ℚ)) (ns : List ℕ) : ℚ :=
  (List.zipWith (fun x n => Option.getD x 0 * (n : ℚ)) vals ns).sum

/-- Reading of the spec's r2 weight denominator (section 4.3):
`Σ_{i ∈ present(v)} n_i`, the sample counts of the cohorts where r2 is
non-absent. -/
def specR2Den (r2s : List (Option ℚ)) (ns : List ℕ) : ℚ :=
  (List.zipWith (fun x n => if x.isSome then (n : ℚ) else 0) r2s ns).sum

/-- Definition following the spec's words for `combined_r2` (section 4.3):
`Σ_{i ∈ present(v)} r2_i * n_i / Σ_{i ∈ present(v)} n_i`, missing when
`present(v)` is empty. -/
def spec_Rsq_combined (r2s : List (Option ℚ)) (ns : List ℕ) : Option ℚ :=
  if specR2Den r2s ns = 0 then none
  else some (specWeightedSum r2s ns / specR2Den r2s ns)

/-- The denominator the code actually computes, written as an explicit
conditional sum: the sample counts of the cohorts whose r2 is present AND
nonzero (a present r2 of 0 drops out through `0 / 0 = NaN` in line 120). -/
def amendR2Den (r2s : List (Option ℚ)) (ns : List ℕ) : ℚ :=
  (List.zipWith
    (fun x n => match x with
      | some v => if v = 0 then 0 else (n : ℚ)
      | none => 0) r2s ns).sum

/-- Reading of the spec's `combined_maf` / `combined_alt_freq` rule (section
4.3): weighted sum with absent values as 0, divided by the unconditional
total sample count. -/
def specFreqCombined (vals : List (Option ℚ)) (ns : List ℕ) : ℚ :=
  specWeightedSum vals ns / ((ns.sum : ℕ) : ℚ)

/-! ### Concrete inputs used by witnesses and counterexamples -/

def kA : IdentityKey := ⟨"chr1:100:A:C", "A", "C", "Imputed"⟩

def kB : IdentityKey := ⟨"chr1:200:G:T", "G", "T", "Imputed"⟩

def kC : IdentityKey := ⟨"chr1:300:T:G", "T", "G", "Genotyped"⟩

/-- A merged table over two cohorts: cohort 1 holds variants kA, kB at
positions 0, 1; cohort 2 holds kB, kC, kA at positions 0, 1, 2.  In the
merge order the forward-filled index sums are 2, 1, 2. -/
def exampleRows : List MergedRow :=
  [⟨kA, [some 0, some 2], [some 1, some 1], [], []⟩,
   ⟨kB, [some 1, some 0], [some 1, some 1], [], []⟩,
   ⟨kC, [none, some 1], [none, some 1], [], []⟩]

/-- A row over three cohorts with r2 present in cohorts 1 and 3 only. -/
def rowW : MergedRow :=
  ⟨kA, [some 0, some 1, some 2], [some 1, none, some (1/2)], [], []⟩

/-! ### Basic facts about the NaN-skipping sum -/

lemma sumSkip_nil : sumSkip [] = 0 := rfl

lemma sumSkip_cons_none (l : List (Option ℚ)) : sumSkip (none :: l) = sumSkip l := by
  simp [sumSkip]

lemma sumSkip_cons_some (v : ℚ) (l : List (Option ℚ)) :
    sumSkip (some v :: l) = v + sumSkip l := by
  simp [sumSkip]

lemma r2Num_cons (x : Option ℚ) (n : ℕ) (xs : List (Option ℚ)) (ns : List ℕ) :
    r2Num (x :: xs) (n :: ns) =
      (match x with | some v => v * (n : ℚ) | none => 0) + r2Num xs ns := by
  cases x with
  | none =>
      simp only [r2Num, List.zipWith_cons_cons, colAdj, Option.map_none']
      rw [sumSkip_cons_none]
      simp
  | some v =>
      simp only [r2Num, List.zipWith_cons_cons, colAdj, Option.map_some']
      rw [sumSkip_cons_some]

lemma specWeightedSum_cons (x : Option ℚ) (n : ℕ) (xs : List (Option ℚ)) (ns : List ℕ) :
    specWeightedSum (x :: xs) (n :: ns) =
      Option.getD x 0 * (n : ℚ) + specWeightedSum xs ns := by
  simp [specWeightedSum]

lemma amendR2Den_cons (x : Option ℚ) (n : ℕ) (xs : List (Option ℚ)) (ns : List ℕ) :
    amendR2Den (x :: xs) (n :: ns) =
      (match x with
        | some v => if v = 0 then 0 else (n : ℚ)
        | none => 0) + amendR2Den xs ns := by
  simp [amendR2Den]

lemma weightAdj_none (n : ℚ) : weightAdj n none = none := rfl

lemma weightAdj_some_zero (n : ℚ) : weightAdj n (some 0) = none := by
  simp [weightAdj]

lemma weightAdj_some_ne (n v : ℚ) (hv : v ≠ 0) : weightAdj n (some v) = some n := by
  simp [weightAdj, hv, mul_div_cancel_right₀]

lemma r2WeightDen_cons (x : Option ℚ) (n : ℕ) (xs : List (Option ℚ)) (ns : List ℕ) :
    r2WeightDen (x :: xs) (n :: ns) =
      (match x with
        | some v => if v = 0 then 0 else (n : ℚ)
        | none => 0) + r2WeightDen xs ns := by
  have hcons : r2WeightDen (x :: xs) (n :: ns) =
      sumSkip (weightAdj (n : ℚ) x ::
        List.zipWith (fun (y : Option ℚ) (m : ℕ) => weightAdj (m : ℚ) y) xs ns) := rfl
  cases x with
  | none =>
      rw [hcons, weightAdj_none, sumSkip_cons_none]
      simp [r2WeightDen]
  | some v =>
      by_cases hv : v = 0
      · subst hv
        rw [hcons, weightAdj_some_zero, sumSkip_cons_none]
        simp [r2WeightDen]
      · rw [hcons, weightAdj_some_ne _ _ hv, sumSkip_cons_some]
        simp [r2WeightDen, hv]

/-- The `value * count` numerator columns sum to the spec's weighted sum:
skipping a NaN is the same as letting an absent value contribute 0. -/
lemma r2Num_eq_specWeightedSum (vals : List (Option ℚ)) :
    ∀ ns : List ℕ, r2Num vals ns = specWeightedSum vals ns := by
  induction vals with
  | nil => intro ns; rfl
  | cons x xs ih =>
      intro ns
      cases ns with
      | nil => rfl
      | cons n ns =>
          rw [r2Num_cons, specWeightedSum_cons, ih ns]
          cases x with
          | none => simp
          | some v => simp

/-- The weight columns built by line 120 sum to the explicit conditional sum
over the cohorts whose r2 is present and nonzero. -/
lemma r2WeightDen_eq_amend (r2s : List (Option ℚ)) :
    ∀ ns : List ℕ, r2WeightDen r2s ns = amendR2Den r2s ns := by
  induction r2s with
  | nil => intro ns; rfl
  | cons x xs ih =>
      intro ns
      cases ns with
      | nil => rfl
      | cons n ns => rw [r2WeightDen_cons, amendR2Den_cons, ih ns]

/-- Every summand of the conditional weight denominator is nonnegative. -/
lemma amendR2Den_term_nonneg (x : Option ℚ) (n : ℕ) :
    0 ≤ (match x with
      | some v => if v = 0 then 0 else (n : ℚ)
      | none => 0) := by
  cases x with
  | none => simp
  | some v => by_cases hv : v = 0 <;> simp [hv]

lemma amendR2Den_nonneg (r2s : List (Option ℚ)) :
    ∀ ns : List ℕ, 0 ≤ amendR2Den r2s ns := by
  induction r2s with
  | nil => intro ns; simp [amendR2Den]
  | cons x xs ih =>
      intro ns
      cases ns with
      | nil => simp [amendR2Den]
      | cons n ns =>
          rw [amendR2Den_cons]
          have h1 := amendR2Den_term_nonneg x n
          have h2 := ih ns
          linarith

/-- Faithfulness of embedding the division of line 128 with a zero guard: a
zero weight denominator forces a zero numerator, so the only float division
by zero the code can reach in line 128 is `0 / 0`, i.e. NaN. -/
lemma r2Num_eq_zero_of_den_zero (r2s : List (Option ℚ)) :
    ∀ ns : List ℕ, r2WeightDen r2s ns = 0 → r2Num r2s ns = 0 := by
  induction r2s with
  | nil => intro ns _; rfl
  | cons x xs ih =>
      intro ns hden
      cases ns with
      | nil => rfl
      | cons n ns =>
          rw [r2WeightDen_cons] at hden
          have hterm := amendR2Den_term_nonneg x n
          have hrest : 0 ≤ r2WeightDen xs ns := by
            rw [r2WeightDen_eq_amend]; exact amendR2Den_nonneg xs ns
          have hrest0 : r2WeightDen xs ns = 0 := by linarith
          have hterm0 : (match x with
              | some v => if v = 0 then 0 else (n : ℚ)
              | none => 0) = 0 := by linarith
          rw [r2Num_cons, ih ns hrest0]
          cases x with
          | none => simp
          | some v =>
              by_cases hv : v = 0
              · subst hv; simp
              · have hn : (n : ℚ) = 0 := by simpa [hv] using hterm0
                simp [hn]

/-! ### Claims about the weighted combination -/

/-- Claim C2, counterexample: for a variant whose r2 is present in both of
two cohorts but equal to 0 in the first, the code's combined r2 (line 128)
is r2 of the second cohort alone, while the spec's presence-weighted formula
gives a strictly smaller value, so the claimed equality fails. -/
theorem Rsq_combined_ne_spec :
    Rsq_combined [some 0, some 1] [100, 50] = some 1 ∧
    spec_Rsq_combined [some 0, some 1] [100, 50] = some (1/3) ∧
    some (1 : ℚ) ≠ some (1/3 : ℚ) := by
  refine ⟨?_, ?_, by norm_num⟩
  · norm_num [Rsq_combined, r2WeightDen, r2Num, weightAdj, colAdj, sumSkip,
      List.filterMap_cons]
  · norm_num [spec_Rsq_combined, specR2Den, specWeightedSum]

/-- Claim C2, amended: in weighted_average mode the combined r2 equals the
presence-weighted numerator divided by the sum of the sample counts of the
cohorts whose r2 is present AND nonzero (a present r2 of 0 drops out of the
denominator through line 120's `0 / 0`); whenever every present r2 is
nonzero this is exactly the spec's presence-weighted average. -/
theorem Rsq_combined_weighted (r2s : List (Option ℚ)) (ns : List ℕ)
    (h : amendR2Den r2s ns ≠ 0) :
    Rsq_combined r2s ns = some (specWeightedSum r2s ns / amendR2Den r2s ns) := by
  unfold Rsq_combined
  rw [r2WeightDen_eq_amend, r2Num_eq_specWeightedSum, if_neg h]

/-- Witness for `Rsq_combined_weighted`: cohort counts 100 and 50, r2 values
0.9 and 0.8 as in the spec's worked example. -/
theorem Rsq_combined_weighted_witness :
    amendR2Den [some (9/10), some (4/5)] [100, 50] ≠ 0 ∧
    Rsq_combined [some (9/10), some (4/5)] [100, 50] =
      some (specWeightedSum [some (9/10), some (4/5)] [100, 50] /
        amendR2Den [some (9/10), some (4/5)] [100, 50]) :=
  ⟨by norm_num [amendR2Den],
    Rsq_combined_weighted [some (9/10), some (4/5)] [100, 50] (by norm_num [amendR2Den])⟩

/-- Claim C7: in weighted_average mode the combined MAF (line 127) and the
combined ALT frequency (line 126) both equal the weighted sum in which an
absent value contributes 0, divided by the unconditional total of all cohort
sample counts, with no restriction to the cohorts where the variant is
present. -/
theorem MAF_ALT_Frq_combined_unconditional (mafs frqs : List (Option ℚ))
    (ns : List ℕ) (h : ns.sum ≠ 0) :
    MAF_combined mafs ns = some (specFreqCombined mafs ns) ∧
    ALT_Frq_combined frqs ns = some (specFreqCombined frqs ns) := by
  have hq : ((ns.sum : ℕ) : ℚ) ≠ 0 := by exact_mod_cast h
  constructor
  · unfold MAF_combined specFreqCombined
    rw [if_neg hq,
      show sumSkip (List.zipWith colAdj mafs ns) = specWeightedSum mafs ns from
        r2Num_eq_specWeightedSum mafs ns]
  · unfold ALT_Frq_combined specFreqCombined
    rw [if_neg hq,
      show sumSkip (List.zipWith colAdj frqs ns) = specWeightedSum frqs ns from
        r2Num_eq_specWeightedSum frqs ns]

/-- Witness for `MAF_ALT_Frq_combined_unconditional`: two cohorts of 2 and 3
individuals, MAF absent in the second cohort. -/
theorem MAF_ALT_Frq_combined_unconditional_witness :
    ([2, 3] : List ℕ).sum ≠ 0 ∧
    (MAF_combined [some (1/2), none] [2, 3] =
        some (specFreqCombined [some (1/2), none] [2, 3]) ∧
      ALT_Frq_combined [some (1/4), some (3/4)] [2, 3] =
        some (specFreqCombined [some (1/4), some (3/4)] [2, 3])) :=
  ⟨by decide,
    MAF_ALT_Frq_combined_unconditional [some (1/2), none] [some (1/4), some (3/4)]
      [2, 3] (by decide)⟩

/-- An all-absent r2 row has a zero (empty) weight-denominator sum. -/
lemma r2WeightDen_all_none :
    ∀ (r2s : List (Option ℚ)), (∀ x ∈ r2s, x = none) →
      ∀ ns : List ℕ, r2WeightDen r2s ns = 0 := by
  intro r2s
  induction r2s with
  | nil => intro _ ns; cases ns <;> rfl
  | cons x xs ih =>
      intro h ns
      cases ns with
      | nil => rfl
      | cons n ns =>
          have hx : x = none := h x (by simp)
          subst hx
          rw [r2WeightDen_cons]
          have htail : r2WeightDen xs ns = 0 :=
            ih (fun y hy => h y (List.mem_cons_of_mem _ hy)) ns
          simp [htail]

/-- Claim C9: in weighted_average mode a variant whose r2 is absent in every
cohort receives a missing combined r2 (the all-NaN sums of line 128 are both
0 and `0 / 0` is NaN); the computation is total, so no exception is
raised. -/
theorem Rsq_combined_all_absent (r2s : List (Option ℚ)) (ns : List ℕ)
    (h : ∀ x ∈ r2s, x = none) : Rsq_combined r2s ns = none := by
  have hden : r2WeightDen r2s ns = 0 := r2WeightDen_all_none r2s h ns
  simp [Rsq_combined, hden]

/-- Witness for `Rsq_combined_all_absent`: two cohorts, both missing. -/
theorem Rsq_combined_all_absent_witness :
    (∀ x ∈ ([none, none] : List (Option ℚ)), x = none) ∧
    Rsq_combined [none, none] [3, 4] = none :=
  ⟨by decide, Rsq_combined_all_absent [none, none] [3, 4] (by decide)⟩

/-- Claim C10: line 120 builds the per-cohort weight as
`n * r2 / r2`, so a present r2 equal to 0 yields a missing weight exactly
like an absent r2, and the combined-r2 weight denominator of line 128 is the
sum of the sample counts of the cohorts whose r2 is present and nonzero. -/
theorem weight_zero_r2_missing :
    (∀ n : ℚ, weightAdj n (some 0) = none ∧ weightAdj n none = none) ∧
    (∀ (r2s : List (Option ℚ)) (ns : List ℕ), r2WeightDen r2s ns = amendR2Den r2s ns) := by
  constructor
  · intro n
    exact ⟨weightAdj_some_zero n, weightAdj_none n⟩
  · intro r2s ns
    exact r2WeightDen_eq_amend r2s ns

/-! ### Claims about the keep/exclude classification -/

/-- The per-cohort exclude conjunct of lines 188/191/196 is the Boolean
negation of the per-cohort keep conjunct of lines 187/190/195: pandas'
`isna` negates `notna`, and on a non-NaN cell `< thr` negates `>= thr`. -/
lemma excl_elem_eq_not_keep_elem (thr : ℚ) (x : Option ℚ) :
    (!x.isSome || (!decide (thr = 0) && ltNaN x thr)) =
      !(x.isSome && (decide (thr = 0) || geNaN x thr)) := by
  cases x with
  | none => simp [geNaN, ltNaN]
  | some v =>
      by_cases h0 : thr = 0
      · simp [geNaN, ltNaN, h0]
      · by_cases hle : thr ≤ v
        · simp [geNaN, ltNaN, h0, hle, not_lt.mpr hle]
        · simp [geNaN, ltNaN, h0, hle, lt_of_not_ge hle]

/-- The exclude mask of the `missing == 0` branch is the exact Boolean
complement of the keep mask. -/
lemma mask_to_exclude_eq_not_keep (thr : ℚ) (r2s : List (Option ℚ)) :
    mask_to_exclude thr r2s = !(mask_to_keep thr r2s) := by
  induction r2s with
  | nil => rfl
  | cons x xs ih =>
      simp only [mask_to_exclude, mask_to_keep, List.any_cons, List.all_cons]
      simp only [mask_to_exclude, mask_to_keep] at ih
      rw [ih, excl_elem_eq_not_keep_elem]
      simp [Bool.not_and, Bool.or_assoc]

/-- Row-level complement: in both branches of `__process_output` the exclude
decision is the negation of the keep decision. -/
lemma exclRow_eq_not_keepRow (N missing : ℕ) (thr : ℚ) (r : MergedRow) :
    exclRow N missing thr r = !(keepRow N missing thr r) := by
  unfold exclRow keepRow
  by_cases hm : missing = 0
  · simp [hm, mask_to_exclude_eq_not_keep]
  · simp [hm]

/-- Claim C3: for every merged table and every missingness/threshold
configuration, the kept selection is a filter of the table, the excluded
selection is the filter by the complementary predicate, and together they
are a permutation of the whole table: disjoint and exhaustive. -/
theorem kept_excluded_partition (N missing : ℕ) (thr : ℚ) (rows : List MergedRow) :
    (process_output N missing thr rows).1 = rows.filter (keepRow N missing thr) ∧
    (process_output N missing thr rows).2 =
      rows.filter (fun r => !(keepRow N missing thr r)) ∧
    List.Perm
      ((process_output N missing thr rows).1 ++ (process_output N missing thr rows).2)
      rows := by
  have hfilter : rows.filter (exclRow N missing thr) =
      rows.filter (fun r => !(keepRow N missing thr r)) :=
    List.filter_congr (fun r _ => exclRow_eq_not_keepRow N missing thr r)
  refine ⟨rfl, hfilter, ?_⟩
  show List.Perm
    (rows.filter (keepRow N missing thr) ++ rows.filter (exclRow N missing thr)) rows
  rw [hfilter]
  exact List.filter_append_perm _ rows

/-- Claim C5: with `missing = 0` and a nonnegative threshold, a variant is
kept iff its r2 is present in every cohort and, when the threshold is
enabled (positive), each present r2 meets it; and the exclude mask is the
exact complement of the keep mask. -/
theorem keep_iff_all_present_and_meet (thr : ℚ) (r2s : List (Option ℚ))
    (h : 0 ≤ thr) :
    (mask_to_keep thr r2s = true ↔
      ∀ x ∈ r2s, ∃ v, x = some v ∧ (0 < thr → thr ≤ v)) ∧
    mask_to_exclude thr r2s = !(mask_to_keep thr r2s) := by
  refine ⟨?_, mask_to_exclude_eq_not_keep thr r2s⟩
  rw [mask_to_keep, List.all_eq_true]
  constructor
  · intro H x hx
    have hp := H x hx
    cases x with
    | none => simp at hp
    | some v =>
        refine ⟨v, rfl, ?_⟩
        intro hpos
        simp only [Option.isSome_some, Bool.true_and, Bool.or_eq_true,
          decide_eq_true_eq] at hp
        rcases hp with h0 | hge
        · exact absurd h0 (ne_of_gt hpos)
        · simpa [geNaN] using hge
  · intro H x hx
    obtain ⟨v, rfl, hv⟩ := H x hx
    simp only [Option.isSome_some, Bool.true_and, Bool.or_eq_true, decide_eq_true_eq]
    rcases eq_or_lt_of_le h with h0 | hpos
    · exact Or.inl h0.symm
    · exact Or.inr (by simpa [geNaN] using hv hpos)

/-- Witness for `keep_iff_all_present_and_meet`: threshold 1/2 and two
present r2 values 1 and 1/2. -/
theorem keep_iff_all_present_and_meet_witness :
    (0 : ℚ) ≤ 1/2 ∧
    ((mask_to_keep (1/2) [some 1, some (1/2)] = true ↔
        ∀ x ∈ ([some 1, some (1/2)] : List (Option ℚ)),
          ∃ v, x = some v ∧ ((0 : ℚ) < 1/2 → 1/2 ≤ v)) ∧
      mask_to_exclude (1/2) [some 1, some (1/2)] =
        !(mask_to_keep (1/2) [some 1, some (1/2)])) :=
  ⟨by norm_num, keep_iff_all_present_and_meet (1/2) [some 1, some (1/2)] (by norm_num)⟩

/-- Claim C6: with `missing > 0` a variant is kept iff at least
`N - missing` of its per-cohort r2 cells are present (`dropna(thresh=...)`,
integer arithmetic), and the r2 threshold plays no role in this branch: the
output is the same under any two threshold configurations. -/
theorem kept_by_presence_count (N missing : ℕ) (thr thr2 : ℚ)
    (rows : List MergedRow) (h : missing ≠ 0) :
    (process_output N missing thr rows).1 =
      rows.filter
        (fun r => decide ((N : ℤ) - (missing : ℤ) ≤ (countPresent r.r2s : ℤ))) ∧
    process_output N missing thr rows = process_output N missing thr2 rows := by
  constructor
  · refine List.filter_congr ?_
    intro r _
    simp [keepRow, h]
  · unfold process_output
    have hk : ∀ r, keepRow N missing thr r = keepRow N missing thr2 r := by
      intro r; simp [keepRow, h]
    have he : ∀ r, exclRow N missing thr r = exclRow N missing thr2 r := by
      intro r; simp [exclRow, keepRow, h]
    rw [List.filter_congr (fun r _ => hk r), List.filter_congr (fun r _ => he r)]

/-- Witness for `kept_by_presence_count`: three cohorts, allowance 1, a row
present in two cohorts, thresholds 1/2 and 7. -/
theorem kept_by_presence_count_witness :
    (1 : ℕ) ≠ 0 ∧
    ((process_output 3 1 (1/2) [rowW]).1 =
        [rowW].filter
          (fun r => decide (((3 : ℕ) : ℤ) - ((1 : ℕ) : ℤ) ≤ (countPresent r.r2s : ℤ))) ∧
      process_output 3 1 (1/2) [rowW] = process_output 3 1 7 [rowW]) :=
  ⟨by decide, kept_by_presence_count 3 1 (1/2) 7 [rowW] (by decide)⟩

/-! ### Claim about the emitted row order -/

/-- Claim C4 fails on the code: for the merged table `exampleRows` the kept
rows are emitted with forward-filled index sums 2 then 1 — not ascending.
Line 172 binds the sorted frame to the attribute `df_merged.sort_values`
(shadowing the method) instead of sorting `df_merged`, so the sort the
code's own comments call for (lines 169, 214-217) never takes effect and
the rows are written in merge order. -/
theorem kept_emission_not_sorted :
    keptKeys 2 0 0 exampleRows = [2, 1] ∧
    ¬ List.Sorted (fun a b => a ≤ b) ([2, 1] : List ℚ) := by
  constructor
  · norm_num [keptKeys, sortKeys, sumIndexKeys, ffillRow, sumSkip, exampleRows,
      keepRow, mask_to_keep, geNaN, List.filterMap_cons, List.zip_cons_cons,
      List.replicate]
  · intro hs
    have h21 := (List.sorted_cons.mp hs).1 1 (by simp)
    norm_num at h21

/-! ### Claims about the outer merge -/

lemma keyCount_eq_zero_iff (k : IdentityKey) (l : List IdentityKey) :
    keyCount k l = 0 ↔ k ∉ l := by
  induction l with
  | nil => simp [keyCount]
  | cons x xs ih =>
      by_cases hx : x = k
      · subst hx
        simp [keyCount]
      · have hkx : ¬ (k = x) := fun h => hx h.symm
        simp [keyCount, hx, ih, hkx]

lemma keyCount_le_one_of_nodup {l : List IdentityKey} (h : l.Nodup)
    (k : IdentityKey) : keyCount k l ≤ 1 := by
  induction l with
  | nil => simp [keyCount]
  | cons x xs ih =>
      rcases List.nodup_cons.mp h with ⟨hx, hxs⟩
      by_cases hxk : x = k
      · subst hxk
        have h0 : keyCount x xs = 0 := (keyCount_eq_zero_iff x xs).mpr hx
        simp [keyCount, h0]
      · simpa [keyCount, hxk] using ih hxs

/-- When the right table has unique keys, the cross-product block of the
outer join degenerates: every left row appears exactly once. -/
lemma mergeLeft_of_nodup {b : List IdentityKey} (hb : b.Nodup) :
    ∀ a : List IdentityKey, mergeLeft b a = a := by
  intro a
  induction a with
  | nil => rfl
  | cons x xs ih =>
      have h1 : keyCount x b ≤ 1 := keyCount_le_one_of_nodup hb x
      rcases Nat.lt_or_ge (keyCount x b) 1 with h | h
      · have h0 : keyCount x b = 0 := Nat.lt_one_iff.mp h
        simp [mergeLeft, h0, ih]
      · have h1' : keyCount x b = 1 := le_antisymm h1 h
        simp [mergeLeft, h1', ih]

lemma outerMerge_eq_append {a b : List IdentityKey} (hb : b.Nodup) :
    outerMerge a b = a ++ b.filter (fun k => decide (keyCount k a = 0)) := by
  unfold outerMerge
  rw [mergeLeft_of_nodup hb]

lemma outerMerge_nodup {a b : List IdentityKey} (ha : a.Nodup) (hb : b.Nodup) :
    (outerMerge a b).Nodup := by
  rw [outerMerge_eq_append hb]
  refine List.Nodup.append ha (hb.filter _) ?_
  intro x hxa hxb
  have hmem := (List.mem_filter.mp hxb).2
  have h0 : keyCount x a = 0 := of_decide_eq_true hmem
  exact ((keyCount_eq_zero_iff x a).mp h0) hxa

lemma mem_outerMerge {a b : List IdentityKey} (hb : b.Nodup) (x : IdentityKey) :
    x ∈ outerMerge a b ↔ x ∈ a ∨ x ∈ b := by
  rw [outerMerge_eq_append hb]
  simp only [List.mem_append, List.mem_filter, decide_eq_true_eq, keyCount_eq_zero_iff]
  constructor
  · rintro (h | ⟨h, _⟩)
    · exact Or.inl h
    · exact Or.inr h
  · intro h
    by_cases hxa : x ∈ a
    · exact Or.inl hxa
    · rcases h with h | h
      · exact absurd h hxa
      · exact Or.inr ⟨h, hxa⟩

lemma toFinset_outerMerge {a b : List IdentityKey} (hb : b.Nodup) :
    (outerMerge a b).toFinset = a.toFinset ∪ b.toFinset := by
  ext x
  simp [mem_outerMerge hb]

lemma foldl_outerMerge_spec (ts : List (List IdentityKey)) :
    ∀ acc : List IdentityKey, acc.Nodup → (∀ t ∈ ts, t.Nodup) →
      (ts.foldl outerMerge acc).Nodup ∧
      (ts.foldl outerMerge acc).toFinset = acc.toFinset ∪ unionKeys ts := by
  induction ts with
  | nil =>
      intro acc ha _
      refine ⟨ha, ?_⟩
      simp [unionKeys]
  | cons t ts ih =>
      intro acc ha hts
      have ht : t.Nodup := hts t (List.mem_cons_self t ts)
      have hts' : ∀ u ∈ ts, u.Nodup := fun u hu => hts u (List.mem_cons_of_mem t hu)
      have hacc' : (outerMerge acc t).Nodup := outerMerge_nodup ha ht
      obtain ⟨h1, h2⟩ := ih (outerMerge acc t) hacc' hts'
      refine ⟨h1, ?_⟩
      show (List.foldl outerMerge (outerMerge acc t) ts).toFinset =
        acc.toFinset ∪ unionKeys (t :: ts)
      rw [h2, toFinset_outerMerge ht]
      show acc.toFinset ∪ t.toFinset ∪ unionKeys ts =
        acc.toFinset ∪ (t.toFinset ∪ unionKeys ts)
      rw [Finset.union_assoc]

/-- Claim C1, counterexample: with a single cohort table the merge step
produces no unified table at all — the first loop iteration of
`__merge_snps` reads `lst_info_df[1]`, which does not exist — while the
claim promises a one-row unified table for this input. -/
theorem merge_single_table_fails : mergeSnps [[kA]] = none := rfl

/-- Claim C1, amended to N >= 2: given at least two cohort tables, each with
unique identity keys, `__merge_snps` produces a merged table with no
duplicate identities whose key set is the union of the input key sets and
whose row count is the size of that union. -/
theorem merge_row_count_union (ts : List (List IdentityKey))
    (h2 : 2 ≤ ts.length) (hnd : ∀ t ∈ ts, t.Nodup) :
    ∃ m, mergeSnps ts = some m ∧ m.Nodup ∧ m.toFinset = unionKeys ts ∧
      m.length = (unionKeys ts).card := by
  rcases ts with _ | ⟨t1, ts1⟩
  · simp at h2
  rcases ts1 with _ | ⟨t2, rest⟩
  · simp at h2
  have ht1 : t1.Nodup := hnd t1 (by simp)
  have ht2 : t2.Nodup := hnd t2 (by simp)
  have hrest : ∀ t ∈ rest, t.Nodup := fun t ht => hnd t (by simp [ht])
  have hbase : (outerMerge t1 t2).Nodup := outerMerge_nodup ht1 ht2
  obtain ⟨hn, hf⟩ := foldl_outerMerge_spec rest (outerMerge t1 t2) hbase hrest
  have hset : (List.foldl outerMerge (outerMerge t1 t2) rest).toFinset =
      unionKeys (t1 :: t2 :: rest) := by
    rw [hf, toFinset_outerMerge ht2]
    show t1.toFinset ∪ t2.toFinset ∪ unionKeys rest =
      t1.toFinset ∪ (t2.toFinset ∪ unionKeys rest)
    rw [Finset.union_assoc]
  refine ⟨List.foldl outerMerge (outerMerge t1 t2) rest, rfl, hn, hset, ?_⟩
  rw [← hset, List.toFinset_card_of_nodup hn]

/-- Witness for `merge_row_count_union`: two singleton tables with distinct
keys. -/
theorem merge_row_count_union_witness :
    2 ≤ ([[kA], [kB]] : List (List IdentityKey)).length ∧
    ∃ m, mergeSnps [[kA], [kB]] = some m ∧ m.Nodup ∧
      m.toFinset = unionKeys [[kA], [kB]] ∧
      m.length = (unionKeys [[kA], [kB]]).card :=
  ⟨by decide, merge_row_count_union [[kA], [kB]] (by decide) (by decide)⟩

lemma keyCount_append (k : IdentityKey) (a b : List IdentityKey) :
    keyCount k (a ++ b) = keyCount k a + keyCount k b := by
  induction a with
  | nil => simp [keyCount]
  | cons x xs ih => simp [keyCount, ih, Nat.add_assoc]

lemma keyCount_replicate (k x : IdentityKey) (n : ℕ) :
    keyCount k (List.replicate n x) = if x = k then n else 0 := by
  induction n with
  | zero => simp [keyCount]
  | succ m ih =>
      rw [List.replicate_succ]
      by_cases hx : x = k
      · subst hx
        simp [keyCount, ih, Nat.add_comm]
      · simp [keyCount, hx, ih]

/-- Cross-product multiplicity of the left block: when `k` occurs in the
right table, each of its left occurrences is replicated once per right
occurrence. -/
lemma keyCount_mergeLeft (b : List IdentityKey) (k : IdentityKey) (hk : k ∈ b) :
    ∀ a : List IdentityKey, keyCount k (mergeLeft b a) = keyCount k a * keyCount k b := by
  have hb0 : keyCount k b ≠ 0 := fun h => ((keyCount_eq_zero_iff k b).mp h) hk
  intro a
  induction a with
  | nil => simp [mergeLeft, keyCount]
  | cons x xs ih =>
      show keyCount k
          ((if keyCount x b = 0 then [x] else List.replicate (keyCount x b) x) ++
            mergeLeft b xs) = keyCount k (x :: xs) * keyCount k b
      rw [keyCount_append, ih]
      by_cases hxk : x = k
      · subst hxk
        rw [if_neg hb0, keyCount_replicate]
        simp [keyCount, Nat.add_mul]
      · have hck : keyCount k (if keyCount x b = 0 then [x]
            else List.replicate (keyCount x b) x) = 0 := by
          by_cases h0 : keyCount x b = 0
          · simp [h0, keyCount, hxk]
          · rw [if_neg h0, keyCount_replicate, if_neg hxk]
        rw [hck]
        simp [keyCount, hxk]

/-- Keys present in the left table never enter the right-only block. -/
lemma keyCount_filter_right (a b : List IdentityKey) (k : IdentityKey) (hk : k ∈ a) :
    keyCount k (b.filter (fun j => decide (keyCount j a = 0))) = 0 := by
  induction b with
  | nil => rfl
  | cons x xs ih =>
      by_cases hx : keyCount x a = 0
      · have hxk : x ≠ k := by
          intro h
          subst h
          exact ((keyCount_eq_zero_iff x a).mp hx) hk
        rw [List.filter_cons_of_pos (by simpa using hx)]
        simp [keyCount, hxk, ih]
      · rw [List.filter_cons_of_neg (by simpa using hx)]
        exact ih

/-- Claim C8, amended: a duplicated identity key inside one cohort table is
not rejected — `__merge_snps` succeeds, and the outer join pairs every left
occurrence of the key with every right occurrence, so a key occurring m
times in table 1 and p times in table 2 occurs m*p times in the merged
output (duplicate identities propagate instead of failing fast). -/
theorem merge_duplicates_cross (t1 t2 : List IdentityKey) (k : IdentityKey)
    (h1 : k ∈ t1) (h2 : k ∈ t2) :
    mergeSnps [t1, t2] = some (outerMerge t1 t2) ∧
    keyCount k (outerMerge t1 t2) = keyCount k t1 * keyCount k t2 := by
  refine ⟨rfl, ?_⟩
  unfold outerMerge
  rw [keyCount_append, keyCount_mergeLeft t2 k h2 t1,
    keyCount_filter_right t1 t2 k h1, Nat.add_zero]

/-- Witness for `merge_duplicates_cross`: key kA twice in table 1 and once
in table 2 yields multiplicity 2 in the merged output. -/
theorem merge_duplicates_cross_witness :
    kA ∈ [kA, kA] ∧ kA ∈ [kA] ∧
    (mergeSnps [[kA, kA], [kA]] = some (outerMerge [kA, kA] [kA]) ∧
      keyCount kA (outerMerge [kA, kA] [kA]) = keyCount kA [kA, kA] * keyCount kA [kA]) :=
  ⟨by decide, by decide, merge_duplicates_cross [kA, kA] [kA] kA (by decide) (by decide)⟩

/-- Claim C8, counterexample: with the duplicate key kA appearing twice in
the first table, the pipeline raises no invalid-input error — the merge
succeeds and returns a table in which the identity kA is duplicated. -/
theorem merge_duplicates_no_error :
    mergeSnps [[kA, kA], [kA]] = some [kA, kA] ∧
    ¬ ([kA, kA] : List IdentityKey).Nodup := by
  refine ⟨rfl, by decide⟩

end IMMerge
